import Mathlib

/-!
WebERA record/replay substrate: `EventActionDescriptor` and the printers of the two clients.

A shallow embedding of

* `Source/WTF/wtf/EventActionDescriptor.cpp` (descriptor identity, canonical string,
  parsing, parameter access and patching),
* the arc dump of `R5/clients/Record/main.cpp` (`slOnCloseEvent`),
* the result printer of `R5/clients/Replay/main.cpp` (`slSchedulerDone`),

followed by the properties established about them.

Conventions of the embedding:

* `std::string` is a list of characters (`Str`); `size()` is `List.length`.
* `std::string::npos` is `none`.
* A failing `assert` and a thrown `std::out_of_range` are `Except.error`.
* `mutable` members written by `const` methods are threaded explicitly: such a method
  returns the value together with the descriptor after the call.
-/

namespace WebERA

/-! ## Strings -/

/-- The embedding of `std::string`. -/
abbrev Str := List Char

/-- The ways a call can abort instead of returning. -/
inductive Failure where
  /-- The failed `assert(typeStartPos != std::string::npos)` of `deserialize`. -/
  | typeStartNotFound
  /-- The failed `assert(typeEndPos != std::string::npos)` of `deserialize`. -/
  | typeEndNotFound
  /-- The failed `assert(typeStartPos < typeEndPos)` of `deserialize`. -/
  | typeStartNotBeforeTypeEnd
  /-- The failed `assert(end != m_params.size())`, commented "indexing into non-existing param". -/
  | nonExistingParam
  /-- The exception `std::out_of_range` thrown by `std::string::substr` when `pos > size()`. -/
  | outOfRange
  deriving DecidableEq, Repr

deriving instance DecidableEq for Except

/-- Scan of `std::string::find(char, pos)`: the remaining characters and the index of the
first of them. -/
def findAux (c : Char) : Str → Nat → Option Nat
  | [], _ => none
  | x :: xs, i => if x = c then some i else findAux c xs (i + 1)

/-- The call `s.find(c, pos)`: index of the first occurrence of `c` at or after `pos`,
`none` for `npos`. -/
def find (s : Str) (c : Char) (pos : Nat) : Option Nat :=
  findAux c (s.drop pos) pos

/-- The call `s.substr(pos, len)`: throws when `pos > size()`, otherwise the
`min(len, size() - pos)` characters starting at `pos`. -/
def substr (s : Str) (pos len : Nat) : Except Failure Str :=
  if s.length < pos then .error .outOfRange else .ok ((s.drop pos).take len)

/-- The call `s.substr(pos)`: the tail of `s` from `pos`; throws when `pos > size()`. -/
def substrFrom (s : Str) (pos : Nat) : Except Failure Str :=
  if s.length < pos then .error .outOfRange else .ok (s.drop pos)

/-- Subtraction of two `size_t` values (64 bit): wraps around below zero. -/
def sizeSub (a b : Nat) : Nat :=
  if b ≤ a then a - b else 2 ^ 64 - (b - a)

/-- Digit loop of `decimal`: most significant digit first, `acc` holds the digits already
produced for the lower places. -/
def decimalAux : Nat → Nat → Str → Str
  | 0, _, acc => acc
  | fuel + 1, n, acc =>
    if n < 10 then Nat.digitChar n :: acc
    else decimalAux fuel (n / 10) (Nat.digitChar (n % 10) :: acc)

/-- What `operator<<` writes for a non-negative integer: its decimal digits. -/
def decimal (n : Nat) : Str :=
  decimalAux (n + 1) n []

/-- The predicate `isspace` of the C locale. -/
def isspace (c : Char) : Bool :=
  c = ' ' || c = '\t' || c = '\n' || c = '\x0b' || c = '\x0c' || c = '\r'

/-- Digit loop of `atoi`: consumes leading decimal digits, stops at the first other
character (the terminating NUL of `c_str()` included). -/
def atoiDigits : Nat → Str → Nat
  | acc, [] => acc
  | acc, c :: cs => if c.isDigit then atoiDigits (acc * 10 + (c.toNat - '0'.toNat)) cs else acc

/-- The function `atoi`: skips white space, reads an optional sign and then decimal digits.
The value is the mathematical one; C leaves `atoi` undefined when it does not fit `int`. -/
def atoi (s : Str) : Int :=
  match s.dropWhile isspace with
  | '-' :: cs => -(atoiDigits 0 cs : Int)
  | '+' :: cs => (atoiDigits 0 cs : Int)
  | cs => (atoiDigits 0 cs : Int)

/-! ## EventActionDescriptor -/

/-- Modelled from the spec: the enum `EventActionCategory` is declared in
`EventActionDescriptor.h`, which is not part of the sources at hand.  The spec describes it as
an enumerated tag with a decimal category code; an enumerator is represented by its code, a
natural number. -/
abbrev EventActionCategory := Nat

/-- The members of `WTF::EventActionDescriptor`. -/
structure EventActionDescriptor where
  m_category : EventActionCategory
  m_type : Str
  m_params : Str
  m_isNull : Bool
  m_patched : Bool
  m_unpatchedString : Str
  m_full_cache : Str
  deriving DecidableEq, Repr

namespace EventActionDescriptor

/-- The constructor `EventActionDescriptor(category, type, params)`: the string members that
are not initialised explicitly are default-constructed (empty). -/
def create (category : EventActionCategory) (type params : Str) : EventActionDescriptor :=
  { m_category := category, m_type := type, m_params := params, m_isNull := false,
    m_patched := false, m_unpatchedString := [], m_full_cache := [] }

/-- The default constructor `EventActionDescriptor()`: sets `m_isNull` and `m_patched` only.
`m_category` is left uninitialised; `indeterminate` is the value the member happens to hold. -/
def defaultConstructed (indeterminate : EventActionCategory) : EventActionDescriptor :=
  { m_category := indeterminate, m_type := [], m_params := [], m_isNull := true,
    m_patched := false, m_unpatchedString := [], m_full_cache := [] }

/-- The static member `EventActionDescriptor::null`: an object of static storage duration is
zero-initialised before its constructor runs, so its `m_category` holds 0. -/
def null : EventActionDescriptor :=
  defaultConstructed 0

/-- The member `operator==`. -/
def operatorEq (a other : EventActionDescriptor) : Bool :=
  a.m_category == other.m_category && a.m_type == other.m_type && a.m_params == other.m_params

/-- The member `operator!=`. -/
def operatorNe (a other : EventActionDescriptor) : Bool :=
  !(operatorEq a other)

/-- Modelled from the spec: `isPatched()` is defined inline in `EventActionDescriptor.h`,
which is not part of the sources at hand; it reports the patched flag. -/
def isPatched (d : EventActionDescriptor) : Bool :=
  d.m_patched

/-- Modelled from the spec: `isNull()` is defined inline in `EventActionDescriptor.h`, which
is not part of the sources at hand; it reports the sentinel flag. -/
def isNull (d : EventActionDescriptor) : Bool :=
  d.m_isNull

/-- The text `toString` streams into `result`:
`m_category << "-" << m_type << "(" << m_params << ")"`. -/
def streamed (d : EventActionDescriptor) : Str :=
  decimal d.m_category ++ "-".toList ++ d.m_type ++ "(".toList ++ d.m_params ++ ")".toList

/-- The member `toString()`: fills the mutable cache when it is empty and returns the cache.
The second component is the descriptor after the call. -/
def toString (d : EventActionDescriptor) : Str × EventActionDescriptor :=
  if d.m_full_cache.isEmpty then
    let d1 := { d with m_full_cache := streamed d }
    (d1.m_full_cache, d1)
  else
    (d.m_full_cache, d)

/-- The member `toUnpatchedString()`. -/
def toUnpatchedString (d : EventActionDescriptor) : Str × EventActionDescriptor :=
  if d.isPatched then (d.m_unpatchedString, d) else d.toString

/-- The member `serialize()`. -/
def serialize (d : EventActionDescriptor) : Str × EventActionDescriptor :=
  d.toString

/-- The static member `deserialize(raw)`. -/
def deserialize (raw : Str) : Except Failure EventActionDescriptor :=
  match find raw '-' 0 with
  | none => .error .typeStartNotFound
  | some typeStartPos =>
    match find raw '(' 0 with
    | none => .error .typeEndNotFound
    | some typeEndPos =>
      if typeStartPos < typeEndPos then do
        let category ← substr raw 0 typeStartPos
        let type ← substr raw (typeStartPos + 1) (sizeSub (sizeSub typeEndPos typeStartPos) 1)
        let params ← substr raw (typeEndPos + 1) (sizeSub (sizeSub raw.length typeEndPos) 2)
        pure (create (atoi category).toNat type params)
      else .error .typeStartNotBeforeTypeEnd

/-- The search `m_params.find(',', start)` with `npos` replaced by `m_params.size()`, as both
`getParameter` and `patchParameter` do right after each search. -/
def findEnd (params : Str) (start : Nat) : Nat :=
  match find params ',' start with
  | none => params.length
  | some e => e

/-- The `for (int i = 0; i < number; i++)` loop shared verbatim by `getParameter` and
`patchParameter`; the first argument counts the iterations still to run.  The assertion stops
the loop after at most `m_params.size()` rounds, long before `i` could leave `int`. -/
def advance (params : Str) : Nat → Nat → Nat → Except Failure (Nat × Nat)
  | 0, start, end_ => .ok (start, end_)
  | k + 1, _, end_ =>
    if end_ = params.length then .error .nonExistingParam
    else advance params k (end_ + 1) (findEnd params (end_ + 1))

/-- The part `getParameter` and `patchParameter` have in common: `start = 0`,
`end = m_params.find(',')` (or `size()`), then the loop. -/
def locate (params : Str) (number : Nat) : Except Failure (Nat × Nat) :=
  advance params number 0 (findEnd params 0)

/-- The member `getParameter(number)`. -/
def getParameter (d : EventActionDescriptor) (number : Nat) : Except Failure Str := do
  let (start, end_) ← locate d.m_params number
  substr d.m_params start (sizeSub end_ start)

/-- The member `patchParameter(number, value)`: the descriptor after the call. -/
def patchParameter (d : EventActionDescriptor) (number : Nat) (value : Str) :
    Except Failure EventActionDescriptor := do
  let (unpatched, d1) := d.toString
  let d2 := { d1 with m_unpatchedString := unpatched }
  let (start, end_) ← locate d2.m_params number
  let head ← substr d2.m_params 0 start
  let tail ← substrFrom d2.m_params end_
  pure { d2 with m_params := head ++ value ++ tail, m_patched := true, m_full_cache := [] }

/-- The static member `escapeParam(param)`: `std::replace(begin, end, ',', '.')` on a copy. -/
def escapeParam (param : Str) : Str :=
  param.map fun c => if c = ',' then '.' else c

end EventActionDescriptor

open EventActionDescriptor

/-! ## Record client: the happens-before dump of `slOnCloseEvent` -/

/-- Modelled from the spec: `ActionLog::Arc` is declared in the action log headers, which are
not part of the sources at hand.  Only its members `m_tail` and `m_head` are used; their type
is left open, and the text `operator<<` writes for one of them is a parameter of the dump. -/
structure Arc (α : Type) where
  m_tail : α
  m_head : α

/-- The part of `RecordClientApplication` the close handler reads and writes, together with
the contents of the file `/tmp/arcs.log`. -/
structure RecordClientApplication where
  m_running : Bool
  arcslog : Str
  deriving DecidableEq, Repr

/-- The loop over `arcs` in `slOnCloseEvent`; `out` is what has been streamed to `arcslog`
so far. -/
def writeArcs {α : Type} (text : α → Str) : List (Arc α) → Str → Str
  | [], out => out
  | it :: rest, out =>
    writeArcs text rest (out ++ text it.m_tail ++ " -> ".toList ++ text it.m_head ++ "\n".toList)

/-- The handler `slOnCloseEvent()`, restricted to the arc dump: a second call returns at once;
the first one clears `m_running` and writes the freshly opened (truncated) `/tmp/arcs.log`.
`arcs` is the value of `ActionLogReportArcs()`. -/
def slOnCloseEvent {α : Type} (text : α → Str) (arcs : List (Arc α))
    (app : RecordClientApplication) : RecordClientApplication :=
  if !app.m_running then app
  else { m_running := false, arcslog := writeArcs text arcs [] }

/-! ## Replay client: the result printer `slSchedulerDone` -/

/-- Modelled from the spec: the scheduler state enum is declared in `replayscheduler.h`, which
is not part of the sources at hand.  The `switch` names `FINISHED`, `TIMEOUT` and `ERROR`;
every other enumerator (the spec's `RUNNING` for one) is `other` with its code. -/
inductive SchedulerState where
  | FINISHED
  | TIMEOUT
  | ERROR
  | other (code : Nat)
  deriving DecidableEq, Repr

/-- A `QWebFrame` as far as the printer looks at it: `toHtml()` and `childFrames()`. -/
inductive QWebFrame where
  | mk (toHtml : Str) (childFrames : List QWebFrame)

mutual
/-- Number of frames in the tree under a frame, itself included. -/
def QWebFrame.count : QWebFrame → Nat
  | .mk _ kids => 1 + countFrames kids
/-- Number of frames in the trees under the frames of a list. -/
def countFrames : List QWebFrame → Nat
  | [] => 0
  | f :: fs => f.count + countFrames fs
end

/-- The `while (!queue.empty())` loop of `slSchedulerDone`: `htmlHash` is a `uint` and wraps
at `2 ^ 32`.  The first argument bounds the number of loop tests; `none` when it is used up. -/
def hashLoop (qHash : Str → Nat) : Nat → List QWebFrame → Nat → Option Nat
  | 0, _, _ => none
  | _ + 1, [], htmlHash => some htmlHash
  | fuel + 1, .mk html kids :: queue, htmlHash =>
    hashLoop qHash fuel (queue ++ kids) ((htmlHash + qHash html) % 2 ^ 32)

/-- The digest of the page: the loop started with the main frame in the queue and
`htmlHash = 0`, with one loop test per frame and a last one for the empty queue. -/
def htmlHash (qHash : Str → Nat) (mainFrame : QWebFrame) : Option Nat :=
  hashLoop qHash (mainFrame.count + 1) [mainFrame] 0

/-- The part of `ReplayClientApplication` the printer reads and writes, together with what
has been written to `std::cout`. -/
structure ReplayClientApplication where
  m_isStopping : Bool
  cout : Str
  deriving DecidableEq, Repr

/-- One `std::cout << line << std::endl`. -/
def putLine (out line : Str) : Str :=
  out ++ line ++ "\n".toList

/-- The `switch (m_scheduler->getState())`: two lines per case. -/
def printState (state : SchedulerState) (out : Str) : Str :=
  match state with
  | .FINISHED =>
    putLine (putLine out "Schedule executed successfully".toList) "Result: FINISHED".toList
  | .TIMEOUT =>
    putLine (putLine out "Schedule partially executed, timed out before finishing.".toList)
      "Result: TIMEOUT".toList
  | .ERROR =>
    putLine (putLine out "Schedule partially executed, could not finish schedule!".toList)
      "Result: ERROR".toList
  | .other _ =>
    putLine (putLine out "Scheduler stopped for an unknown reason.".toList)
      "Result: ERROR".toList

/-- The slot `slSchedulerDone()`: `state` is `m_scheduler->getState()`, `mainFrame` the main
frame of the page.  The screenshot, the error log and the closing of the window are outside
the embedding.  The result is `none` only if the digest loop did not finish. -/
def slSchedulerDone (qHash : Str → Nat) (state : SchedulerState) (mainFrame : QWebFrame)
    (app : ReplayClientApplication) : Option ReplayClientApplication :=
  if app.m_isStopping = false then do
    let digest ← htmlHash qHash mainFrame
    let out := printState state app.cout
    let out := putLine out ("HTML-hash: ".toList ++ decimal digest)
    pure { m_isStopping := true, cout := out }
  else pure app

/-! ## Reference notions used to state the properties -/

/-- The canonical form the spec gives for a descriptor: the decimal category code, a dash,
the type, and the parameters in parentheses. -/
def canonical (category : Nat) (type params : Str) : Str :=
  decimal category ++ ('-' :: type) ++ ('(' :: params) ++ [')']

/-- Comma-join of parameter values. -/
def joinParams (values : List Str) : Str :=
  [','].intercalate values

/-- The cache of a descriptor is coherent when it is empty or holds the text `toString`
would stream.  Every descriptor built by `create` and used through the member functions is in
this state. -/
def CacheCoherent (d : EventActionDescriptor) : Prop :=
  d.m_full_cache = [] ∨ d.m_full_cache = streamed d

/-- The line the dump holds for one arc. -/
def arcLine {α : Type} (text : α → Str) (a : Arc α) : Str :=
  text a.m_tail ++ " -> ".toList ++ text a.m_head

/-- The result line the spec associates with a scheduler state. -/
def resultLine : SchedulerState → Str
  | .FINISHED => "Result: FINISHED".toList
  | .TIMEOUT => "Result: TIMEOUT".toList
  | _ => "Result: ERROR".toList

/-- A sequence of `patchParameter(number, value)` calls on one descriptor, first call first;
it stops at the first call that fails. -/
def patchAll (d : EventActionDescriptor) :
    List (Nat × Str) → Except Failure EventActionDescriptor
  | [] => .ok d
  | call :: calls =>
    match patchParameter d call.1 call.2 with
    | .ok d1 => patchAll d1 calls
    | .error f => .error f

/-- The parameter values after a sequence of patches: each call replaces the value at its
index. -/
def setAll (values : List Str) : List (Nat × Str) → List Str
  | [] => values
  | call :: calls => setAll (values.set call.1 call.2) calls

/-- Every value followed by a comma: the text in front of a parameter. -/
def joinPrefix (values : List Str) : Str :=
  (values.map fun v => v ++ [',']).flatten

/-- Every value preceded by a comma: the text behind a parameter. -/
def joinSuffix (values : List Str) : Str :=
  (values.map fun v => ',' :: v).flatten

/-! ## Basic facts about the string primitives -/

theorem findAux_eq_none {c : Char} {s : Str} (h : c ∉ s) (i : Nat) : findAux c s i = none := by
  induction s generalizing i with
  | nil => rfl
  | cons x xs ih =>
    simp only [List.mem_cons, not_or] at h
    have hx : ¬ x = c := fun e => h.1 e.symm
    simp [findAux, hx, ih h.2]

theorem findAux_append_cons {c : Char} {a : Str} (h : c ∉ a) (b : Str) (i : Nat) :
    findAux c (a ++ c :: b) i = some (i + a.length) := by
  induction a generalizing i with
  | nil => simp [findAux]
  | cons x xs ih =>
    simp only [List.mem_cons, not_or] at h
    have hx : ¬ x = c := fun e => h.1 e.symm
    show findAux c (x :: (xs ++ c :: b)) i = _
    simp only [findAux, hx, if_false, ih h.2, List.length_cons]
    exact congrArg some (by omega)

/-- Searching from the end of a prefix: no hit when the rest is free of the character. -/
theorem find_after_prefix_none {c : Char} (pre : Str) {v : Str} (h : c ∉ v) :
    find (pre ++ v) c pre.length = none := by
  simp [find, findAux_eq_none h]

/-- Searching from the end of a prefix: the hit is right after the first field. -/
theorem find_after_prefix_some {c : Char} (pre : Str) {v : Str} (h : c ∉ v) (rest : Str) :
    find (pre ++ (v ++ c :: rest)) c pre.length = some (pre.length + v.length) := by
  simp [find, findAux_append_cons h]

theorem find_zero_none {c : Char} {s : Str} (h : c ∉ s) : find s c 0 = none := by
  simpa using find_after_prefix_none [] h

theorem find_zero_some {c : Char} {a : Str} (h : c ∉ a) (b : Str) :
    find (a ++ c :: b) c 0 = some a.length := by
  simpa using find_after_prefix_some [] h b

theorem findAux_eq (c : Char) (s : Str) (i : Nat) :
    findAux c s i = if c ∈ s then some (i + s.indexOf c) else none := by
  induction s generalizing i with
  | nil => simp [findAux]
  | cons x xs ih =>
    by_cases hx : x = c
    · subst hx
      simp [findAux]
    · have hx2 : ¬ c = x := fun e => hx e.symm
      simp only [findAux, hx, if_false, ih, List.mem_cons, hx2, false_or]
      by_cases hm : c ∈ xs
      · simp only [hm, if_true, List.indexOf_cons_ne _ hx]
        congr 1
        omega
      · simp [hm]

/-- The first-occurrence reading of `find`: the index `List.indexOf` gives when the
character occurs, `npos` otherwise. -/
theorem find_zero_eq (c : Char) (s : Str) :
    find s c 0 = if c ∈ s then some (s.indexOf c) else none := by
  simp [find, findAux_eq]

/-! ## Decimal output and `atoi` -/

theorem digitChar_isDigit {d : Nat} (h : d < 10) : (Nat.digitChar d).isDigit = true := by
  interval_cases d <;> rfl

theorem digitChar_value {d : Nat} (h : d < 10) : (Nat.digitChar d).toNat - '0'.toNat = d := by
  interval_cases d <;> rfl

theorem decimalAux_isDigit (fuel n : Nat) (acc : Str) (hacc : ∀ c ∈ acc, c.isDigit = true) :
    ∀ c ∈ decimalAux fuel n acc, c.isDigit = true := by
  induction fuel generalizing n acc with
  | zero => simpa [decimalAux] using hacc
  | succ fuel ih =>
    unfold decimalAux
    split
    · intro c hc
      rcases List.mem_cons.1 hc with rfl | hc
      · exact digitChar_isDigit (by omega)
      · exact hacc c hc
    · apply ih
      intro c hc
      rcases List.mem_cons.1 hc with rfl | hc
      · exact digitChar_isDigit (Nat.mod_lt _ (by decide))
      · exact hacc c hc

theorem decimal_isDigit (n : Nat) : ∀ c ∈ decimal n, c.isDigit = true :=
  decimalAux_isDigit _ _ _ (by simp)

theorem decimalAux_ne_nil (fuel n : Nat) (acc : Str) (h : 0 < fuel) :
    decimalAux fuel n acc ≠ [] := by
  induction fuel generalizing n acc with
  | zero => omega
  | succ fuel ih =>
    unfold decimalAux
    split
    · simp
    · cases fuel with
      | zero => simp [decimalAux]
      | succ k => exact ih _ _ (by omega)

theorem decimal_ne_nil (n : Nat) : decimal n ≠ [] :=
  decimalAux_ne_nil _ _ _ (by omega)

theorem not_mem_decimal {c : Char} (h : c.isDigit = false) (n : Nat) : c ∉ decimal n := by
  intro hc
  rw [decimal_isDigit n c hc] at h
  exact absurd h (by decide)

/-- Reading back the digits `decimalAux` puts in front of `tl`. -/
theorem atoiDigits_decimalAux (fuel n : Nat) (tl : Str) (hfuel : n < fuel) :
    ∃ k, ∀ a, atoiDigits a (decimalAux fuel n tl) = atoiDigits (a * 10 ^ k + n) tl := by
  induction fuel generalizing n tl with
  | zero => omega
  | succ fuel ih =>
    unfold decimalAux
    split
    · rename_i hn
      refine ⟨1, fun a => ?_⟩
      simp only [atoiDigits, digitChar_isDigit hn, digitChar_value hn, if_true, pow_one]
    · rename_i hn
      obtain ⟨k, hk⟩ := ih (n / 10) (Nat.digitChar (n % 10) :: tl) (by omega)
      refine ⟨k + 1, fun a => ?_⟩
      have hm : n % 10 < 10 := Nat.mod_lt _ (by decide)
      rw [hk a]
      simp only [atoiDigits, digitChar_isDigit hm, digitChar_value hm, if_true]
      congr 1
      rw [pow_succ, ← Nat.mul_assoc]
      generalize a * 10 ^ k = X
      omega

theorem atoiDigits_decimal (n : Nat) : atoiDigits 0 (decimal n) = n := by
  obtain ⟨k, hk⟩ := atoiDigits_decimalAux (n + 1) n [] (by omega)
  simp [decimal, hk, atoiDigits]

theorem isspace_of_isDigit {c : Char} (h : c.isDigit = true) : isspace c = false := by
  by_contra hs
  have hs2 : isspace c = true := by simpa using hs
  simp only [isspace, Bool.or_eq_true, decide_eq_true_eq] at hs2
  rcases hs2 with ((((rfl | rfl) | rfl) | rfl) | rfl) | rfl <;> exact absurd h (by decide)

/-- The round trip of the category code: `atoi` reads back what `operator<<` wrote. -/
theorem atoi_decimal (n : Nat) : atoi (decimal n) = (n : Int) := by
  have hne := decimal_ne_nil n
  have hd := decimal_isDigit n
  have hv := atoiDigits_decimal n
  generalize decimal n = s at hne hd hv
  cases s with
  | nil => exact absurd rfl hne
  | cons d ds =>
    have hdig : d.isDigit = true := hd d (by simp)
    have hminus : d ≠ '-' := by
      rintro rfl
      exact absurd hdig (by decide)
    have hplus : d ≠ '+' := by
      rintro rfl
      exact absurd hdig (by decide)
    unfold atoi
    rw [List.dropWhile_cons_of_neg (by simp [isspace_of_isDigit hdig])]
    split
    · rename_i heq
      exact absurd (List.cons.inj heq).1 hminus
    · rename_i heq
      exact absurd (List.cons.inj heq).1 hplus
    · rw [hv]

/-! ## Parsing -/

theorem substr_ok {s : Str} {pos : Nat} (h : pos ≤ s.length) (len : Nat) :
    substr s pos len = .ok ((s.drop pos).take len) := by
  simp [substr, Nat.not_lt.2 h]

theorem substrFrom_ok {s : Str} {pos : Nat} (h : pos ≤ s.length) :
    substrFrom s pos = .ok (s.drop pos) := by
  simp [substrFrom, Nat.not_lt.2 h]

/-- What `deserialize` returns on a string with a dash after `pre`, a parenthesis after
`type`, and at least one character after the parenthesis: the last character is dropped
unseen. -/
theorem deserialize_shape (pre type params : Str) (last : Char)
    (hd : '-' ∉ pre) (hp : '(' ∉ pre) (ht : '(' ∉ type) :
    deserialize (pre ++ '-' :: (type ++ '(' :: (params ++ [last]))) =
      .ok (create (atoi pre).toNat type params) := by
  have h1 : find (pre ++ '-' :: (type ++ '(' :: (params ++ [last]))) '-' 0 = some pre.length :=
    find_zero_some hd _
  have hpt : '(' ∉ pre ++ '-' :: type := by
    simp only [List.mem_append, List.mem_cons, not_or]
    exact ⟨hp, by decide, ht⟩
  have h2 : find (pre ++ '-' :: (type ++ '(' :: (params ++ [last]))) '(' 0 =
      some (pre.length + 1 + type.length) := by
    have := find_zero_some hpt (params ++ [last])
    simp only [List.append_assoc, List.cons_append, List.length_append, List.length_cons]
      at this
    rw [this]
    exact congrArg some (by omega)
  have hlen : (pre ++ '-' :: (type ++ '(' :: (params ++ [last]))).length =
      pre.length + 1 + type.length + 1 + params.length + 1 := by
    simp only [List.length_append, List.length_cons, List.length_nil]
    omega
  have e1 : sizeSub (sizeSub (pre.length + 1 + type.length) pre.length) 1 = type.length := by
    simp only [sizeSub]
    split_ifs <;> omega
  have e2 : sizeSub (sizeSub (pre ++ '-' :: (type ++ '(' :: (params ++ [last]))).length
      (pre.length + 1 + type.length)) 2 = params.length := by
    rw [hlen]
    simp only [sizeSub]
    split_ifs <;> omega
  have s1 : substr (pre ++ '-' :: (type ++ '(' :: (params ++ [last]))) 0 pre.length =
      .ok pre := by
    rw [substr_ok (Nat.zero_le _)]
    simp
  have s2 : substr (pre ++ '-' :: (type ++ '(' :: (params ++ [last]))) (pre.length + 1)
      (sizeSub (sizeSub (pre.length + 1 + type.length) pre.length) 1) = .ok type := by
    rw [substr_ok (by rw [hlen]; omega), e1]
    have : pre ++ '-' :: (type ++ '(' :: (params ++ [last])) =
        (pre ++ ['-']) ++ (type ++ '(' :: (params ++ [last])) := by simp
    rw [this, List.drop_left' (by simp)]
    simp
  have s3 : substr (pre ++ '-' :: (type ++ '(' :: (params ++ [last])))
      (pre.length + 1 + type.length + 1)
      (sizeSub (sizeSub (pre ++ '-' :: (type ++ '(' :: (params ++ [last]))).length
        (pre.length + 1 + type.length)) 2) = .ok params := by
    rw [substr_ok (by rw [hlen]; omega), e2]
    have : pre ++ '-' :: (type ++ '(' :: (params ++ [last])) =
        (pre ++ '-' :: (type ++ ['('])) ++ (params ++ [last]) := by simp
    rw [this, List.drop_left' (by simp; omega)]
    simp
  unfold deserialize
  rw [h1, h2]
  simp only
  rw [if_pos (by omega), s1, s2, s3]
  rfl

/-- The complete case analysis of `deserialize`: which assertion fails, and that the
call returns whenever none does. -/
theorem deserialize_cases (raw : Str) :
    ('-' ∉ raw → deserialize raw = .error .typeStartNotFound) ∧
    ('-' ∈ raw → '(' ∉ raw → deserialize raw = .error .typeEndNotFound) ∧
    ('-' ∈ raw → '(' ∈ raw → ¬ raw.indexOf '-' < raw.indexOf '(' →
      deserialize raw = .error .typeStartNotBeforeTypeEnd) ∧
    ('-' ∈ raw → '(' ∈ raw → raw.indexOf '-' < raw.indexOf '(' →
      ∃ d, deserialize raw = .ok d) := by
  refine ⟨fun h1 => ?_, fun h1 h2 => ?_, fun h1 h2 h3 => ?_, fun h1 h2 h3 => ?_⟩
  · simp [deserialize, find_zero_eq, h1]
  · simp [deserialize, find_zero_eq, h1, h2]
  · simp [deserialize, find_zero_eq, h1, h2, h3]
  · have l1 : raw.indexOf '-' < raw.length := List.indexOf_lt_length.2 h1
    have l2 : raw.indexOf '(' < raw.length := List.indexOf_lt_length.2 h2
    unfold deserialize
    rw [find_zero_eq, find_zero_eq, if_pos h1, if_pos h2]
    simp only
    rw [if_pos h3, substr_ok (Nat.zero_le _), substr_ok (Nat.succ_le_of_lt l1),
      substr_ok (Nat.succ_le_of_lt l2)]
    exact ⟨_, rfl⟩

/-! ## Locating a parameter -/

theorem joinParams_cons (cur : Str) (rest : List Str) :
    joinParams (cur :: rest) = cur ++ joinSuffix rest := by
  induction rest generalizing cur with
  | nil => simp [joinParams, joinSuffix, List.intercalate]
  | cons r rs ih =>
    have h := ih r
    simp only [joinParams, List.intercalate, List.intersperse, joinSuffix, List.map_cons,
      List.flatten_cons, List.cons_append, List.nil_append, List.singleton_append] at h ⊢
    rw [h]

theorem findEnd_field (P cur : Str) (rest : List Str) (hcur : ',' ∉ cur) :
    findEnd (P ++ (cur ++ joinSuffix rest)) P.length = P.length + cur.length := by
  cases rest with
  | nil =>
    simp [findEnd, joinSuffix, find_after_prefix_none P hcur]
  | cons r rs =>
    have : joinSuffix (r :: rs) = ',' :: (r ++ joinSuffix rs) := by
      simp [joinSuffix]
    rw [this]
    simp [findEnd, find_after_prefix_some P hcur]

/-- The loop invariant of `getParameter` and `patchParameter`: with `start` and `end`
around the field `cur`, `k` more rounds end around the `k`-th value counted from `cur`, or
fail when there is none. -/
theorem advance_spec (k : Nat) (P cur : Str) (rest : List Str) (hcur : ',' ∉ cur)
    (hrest : ∀ v ∈ rest, ',' ∉ v) :
    advance (P ++ (cur ++ joinSuffix rest)) k P.length (P.length + cur.length) =
      match (cur :: rest)[k]? with
      | some f => .ok ((P ++ joinPrefix ((cur :: rest).take k)).length,
          (P ++ joinPrefix ((cur :: rest).take k)).length + f.length)
      | none => .error .nonExistingParam := by
  induction k generalizing P cur rest with
  | zero => simp [advance, joinPrefix]
  | succ k ih =>
    cases rest with
    | nil => simp [advance, joinSuffix]
    | cons r rs =>
      have hr : ',' ∉ r := hrest r (by simp)
      have hrs : ∀ v ∈ rs, ',' ∉ v := fun v hv => hrest v (by simp [hv])
      have hsuf : joinSuffix (r :: rs) = ',' :: (r ++ joinSuffix rs) := by
        simp [joinSuffix]
      have hsplit : P ++ (cur ++ joinSuffix (r :: rs)) =
          (P ++ (cur ++ [','])) ++ (r ++ joinSuffix rs) := by
        simp [hsuf]
      have hne : ¬ P.length + cur.length = (P ++ (cur ++ joinSuffix (r :: rs))).length := by
        rw [hsuf]
        simp only [List.length_append, List.length_cons]
        omega
      have hstart : P.length + cur.length + 1 = (P ++ (cur ++ [','])).length := by
        simp only [List.length_append, List.length_cons, List.length_nil]
        omega
      unfold advance
      rw [if_neg hne, hstart, hsplit, findEnd_field _ r rs hr, ih _ r rs hr hrs]
      simp [joinPrefix]

theorem joinParams_split (values : List Str) (k : Nat) (f : Str) (h : values[k]? = some f) :
    joinParams values = joinPrefix (values.take k) ++ (f ++ joinSuffix (values.drop (k + 1))) := by
  induction values generalizing k with
  | nil => simp at h
  | cons cur rest ih =>
    cases k with
    | zero =>
      simp only [List.getElem?_cons_zero, Option.some.injEq] at h
      subst h
      simp [joinParams_cons, joinPrefix]
    | succ k =>
      simp only [List.getElem?_cons_succ] at h
      cases rest with
      | nil => simp at h
      | cons r rs =>
        have := ih k h
        simp only [List.drop_succ_cons] at this
        rw [joinParams_cons] at this ⊢
        have hsuf : joinSuffix (r :: rs) = ',' :: (r ++ joinSuffix rs) := by
          simp [joinSuffix]
        rw [hsuf]
        simp only [List.take_succ_cons, List.drop_succ_cons]
        have hp : joinPrefix (cur :: List.take k (r :: rs)) =
            cur ++ ',' :: joinPrefix (List.take k (r :: rs)) := by
          simp [joinPrefix]
        rw [hp, List.append_assoc, List.cons_append, ← this]

/-- Where `locate` ends on the comma-join of comma-free values. -/
theorem locate_spec (values : List Str) (hne : values ≠ []) (hfree : ∀ v ∈ values, ',' ∉ v)
    (k : Nat) :
    locate (joinParams values) k =
      match values[k]? with
      | some f => .ok ((joinPrefix (values.take k)).length,
          (joinPrefix (values.take k)).length + f.length)
      | none => .error .nonExistingParam := by
  cases values with
  | nil => exact absurd rfl hne
  | cons cur rest =>
    have hcur : ',' ∉ cur := hfree cur (by simp)
    have hrest : ∀ v ∈ rest, ',' ∉ v := fun v hv => hfree v (by simp [hv])
    have h0 := findEnd_field [] cur rest hcur
    have h1 := advance_spec k [] cur rest hcur hrest
    simp only [List.nil_append, List.length_nil, Nat.zero_add] at h0 h1
    unfold locate
    rw [joinParams_cons, h0, h1]

/-! ## Splitting on the separator -/

theorem splitOn_free (s : Str) : ∀ v ∈ s.splitOn ',', ',' ∉ v := by
  induction s with
  | nil => simp
  | cons c cs ih =>
    simp only [List.splitOn] at ih ⊢
    rw [List.splitOnP_cons]
    split
    · intro v hv
      rcases List.mem_cons.1 hv with rfl | hv
      · simp
      · exact ih v hv
    · rename_i hc
      have hc2 : ¬ ',' = c := fun e => hc (by rw [← e]; rfl)
      cases hsp : List.splitOnP (fun x => x == ',') cs with
      | nil => simp [List.modifyHead]
      | cons f fs =>
        rw [hsp] at ih
        intro v hv
        simp only [List.modifyHead, List.mem_cons] at hv
        rcases hv with rfl | hv
        · have := ih f (by simp)
          simp [hc2, this]
        · exact ih v (by simp [hv])

theorem splitOn_ne_nil (s : Str) : s.splitOn ',' ≠ [] :=
  List.splitOnP_ne_nil _ _

theorem joinParams_splitOn (s : Str) : joinParams (s.splitOn ',') = s :=
  List.intercalate_splitOn s ','

/-! ## The cache -/

theorem streamed_eq_canonical (d : EventActionDescriptor) :
    streamed d = canonical d.m_category d.m_type d.m_params := by
  simp [streamed, canonical]

theorem canonical_ne_nil (category : Nat) (type params : Str) :
    canonical category type params ≠ [] := by
  simp [canonical]

/-- On a coherent descriptor `toString` returns the canonical form and only fills the
cache. -/
theorem toString_coherent (d : EventActionDescriptor) (h : CacheCoherent d) :
    d.toString = (canonical d.m_category d.m_type d.m_params,
      { d with m_full_cache := canonical d.m_category d.m_type d.m_params }) := by
  rcases h with h | h
  · simp [EventActionDescriptor.toString, h, streamed_eq_canonical]
  · have hne : d.m_full_cache.isEmpty = false := by
      rw [h, streamed_eq_canonical]
      cases hc : canonical d.m_category d.m_type d.m_params with
      | nil => exact absurd hc (canonical_ne_nil _ _ _)
      | cons x xs => rfl
    have hd : d = { d with m_full_cache := canonical d.m_category d.m_type d.m_params } := by
      rw [← streamed_eq_canonical, ← h]
    simp only [EventActionDescriptor.toString, hne]
    rw [← hd, h, streamed_eq_canonical]
    rfl

theorem serialize_coherent (d : EventActionDescriptor) (h : CacheCoherent d) :
    d.serialize = (canonical d.m_category d.m_type d.m_params,
      { d with m_full_cache := canonical d.m_category d.m_type d.m_params }) :=
  toString_coherent d h

theorem cacheCoherent_create (category : Nat) (type params : Str) :
    CacheCoherent (create category type params) :=
  Or.inl rfl

theorem cacheCoherent_toString (d : EventActionDescriptor) (h : CacheCoherent d) :
    CacheCoherent d.toString.2 := by
  rw [toString_coherent d h]
  exact Or.inr (streamed_eq_canonical _).symm

theorem cacheCoherent_toUnpatchedString (d : EventActionDescriptor) (h : CacheCoherent d) :
    CacheCoherent d.toUnpatchedString.2 := by
  unfold toUnpatchedString
  split
  · exact h
  · exact cacheCoherent_toString d h

theorem cacheCoherent_patchParameter (d d1 : EventActionDescriptor) (number : Nat)
    (value : Str) (h : patchParameter d number value = .ok d1) : CacheCoherent d1 := by
  unfold patchParameter at h
  simp only [bind, Except.bind, pure, Except.pure] at h
  split at h
  · exact absurd h (by simp)
  · split at h
    · exact absurd h (by simp)
    · split at h
      · exact absurd h (by simp)
      · simp only [Except.ok.injEq] at h
        subst h
        exact Or.inl rfl

/-! ## Parameter access and patching on comma-joined values -/

theorem take_set_self (l : List Str) (i : Nat) (a : Str) : (l.set i a).take i = l.take i := by
  induction l generalizing i with
  | nil => simp
  | cons x xs ih =>
    cases i with
    | zero => simp
    | succ i => simp [ih]

theorem sizeSub_add_left (s n : Nat) : sizeSub (s + n) s = n := by
  simp [sizeSub]

/-- The value `getParameter` returns on the comma-join of comma-free values. -/
theorem getParameter_joined (d : EventActionDescriptor) (values : List Str) (i : Nat)
    (hne : values ≠ []) (hfree : ∀ v ∈ values, ',' ∉ v)
    (hparams : d.m_params = joinParams values) :
    getParameter d i =
      match values[i]? with
      | some f => .ok f
      | none => .error .nonExistingParam := by
  unfold getParameter
  rw [hparams, locate_spec values hne hfree i]
  cases hv : values[i]? with
  | none => rfl
  | some f =>
    simp only [bind, Except.bind]
    rw [sizeSub_add_left, joinParams_split values i f hv, substr_ok (by simp)]
    simp

/-- The descriptor `patchParameter` leaves behind on the comma-join of comma-free values. -/
theorem patchParameter_joined (d : EventActionDescriptor) (values : List Str) (i : Nat)
    (f newValue : Str) (hcache : CacheCoherent d) (hne : values ≠ [])
    (hfree : ∀ v ∈ values, ',' ∉ v) (hparams : d.m_params = joinParams values)
    (hi : values[i]? = some f) :
    patchParameter d i newValue = .ok
      { d with
        m_params := joinParams (values.set i newValue)
        m_patched := true
        m_unpatchedString := canonical d.m_category d.m_type d.m_params
        m_full_cache := [] } := by
  have hlt : i < values.length := by
    by_contra hge
    rw [List.getElem?_eq_none (by omega)] at hi
    exact absurd hi (by simp)
  have hset : (values.set i newValue)[i]? = some newValue := by
    simp [hlt]
  have hnew := joinParams_split (values.set i newValue) i newValue hset
  rw [take_set_self, List.drop_set_of_lt _ _ (Nat.lt_succ_self i)] at hnew
  have hold := joinParams_split values i f hi
  unfold patchParameter
  rw [toString_coherent d hcache]
  simp only [bind, Except.bind, pure, Except.pure]
  rw [hparams, locate_spec values hne hfree i, hi]
  simp only
  have hhead : substr (joinParams values) 0 (joinPrefix (values.take i)).length =
      .ok (joinPrefix (values.take i)) := by
    rw [substr_ok (Nat.zero_le _), hold]
    simp
  have htail : substrFrom (joinParams values)
      ((joinPrefix (values.take i)).length + f.length) =
      .ok (joinSuffix (values.drop (i + 1))) := by
    rw [substrFrom_ok (by rw [hold]; simp), hold, ← List.append_assoc,
      List.drop_left' (by simp)]
  rw [hhead, htail]
  simp only
  rw [hnew]
  simp

/-! ## The two clients -/

theorem writeArcs_eq {α : Type} (text : α → Str) (arcs : List (Arc α)) (out : Str) :
    writeArcs text arcs out =
      out ++ (arcs.map fun a => arcLine text a ++ "\n".toList).flatten := by
  induction arcs generalizing out with
  | nil => simp [writeArcs]
  | cons a rest ih => simp [writeArcs, ih, arcLine]

theorem countFrames_append (xs ys : List QWebFrame) :
    countFrames (xs ++ ys) = countFrames xs + countFrames ys := by
  induction xs with
  | nil => simp [countFrames]
  | cons x xs ih =>
    show countFrames (x :: (xs ++ ys)) = _
    simp only [countFrames, ih]
    omega

/-- The digest loop finishes: one loop test per frame still reachable from the queue, and
one more for the empty queue, are enough, and the digest stays a `uint`. -/
theorem hashLoop_total (qHash : Str → Nat) (fuel : Nat) (queue : List QWebFrame) (acc : Nat)
    (hfuel : countFrames queue < fuel) (hacc : acc < 2 ^ 32) :
    ∃ digest, hashLoop qHash fuel queue acc = some digest ∧ digest < 2 ^ 32 := by
  induction fuel generalizing queue acc with
  | zero => omega
  | succ fuel ih =>
    cases queue with
    | nil => exact ⟨acc, rfl, hacc⟩
    | cons current rest =>
      cases current with
      | mk html kids =>
        simp only [hashLoop]
        apply ih
        · rw [countFrames_append]
          simp only [countFrames, QWebFrame.count] at hfuel
          omega
        · exact Nat.mod_lt _ (by decide)

theorem htmlHash_total (qHash : Str → Nat) (mainFrame : QWebFrame) :
    ∃ digest, htmlHash qHash mainFrame = some digest ∧ digest < 2 ^ 32 := by
  apply hashLoop_total
  · simp [countFrames]
  · decide

theorem printState_eq (state : SchedulerState) (out : Str) :
    ∃ description : Str,
      printState state out =
        out ++ description ++ "\n".toList ++ resultLine state ++ "\n".toList ∧
      "Result: ".toList.isPrefixOf description = false ∧ '\n' ∉ description := by
  cases state with
  | FINISHED =>
    exact ⟨"Schedule executed successfully".toList, by simp [printState, putLine, resultLine],
      by decide, by decide⟩
  | TIMEOUT =>
    exact ⟨"Schedule partially executed, timed out before finishing.".toList,
      by simp [printState, putLine, resultLine], by decide, by decide⟩
  | ERROR =>
    exact ⟨"Schedule partially executed, could not finish schedule!".toList,
      by simp [printState, putLine, resultLine], by decide, by decide⟩
  | other code =>
    exact ⟨"Scheduler stopped for an unknown reason.".toList,
      by simp [printState, putLine, resultLine], by decide, by decide⟩

/-! ## Properties of the descriptor -/

/-- C1, as stated, fails: the type "a(b" contains the character `deserialize` searches for,
so the descriptor `create(1, "a(b", "c")`, whose parameter value is comma-free, serializes to
"1-a(b(c)" and is read back with type "a" and params "b(c", which `operator==` tells apart
from the original. -/
theorem roundtrip_fails_paren_in_type :
    ',' ∉ "c".toList ∧
    (serialize (create 1 "a(b".toList "c".toList)).1 = "1-a(b(c)".toList ∧
    deserialize (serialize (create 1 "a(b".toList "c".toList)).1 =
      .ok (create 1 "a".toList "b(c".toList) ∧
    operatorEq (create 1 "a".toList "b(c".toList) (create 1 "a(b".toList "c".toList) = false := by
  decide

/-- C1, amended: for every category code in the range of `int` (where `atoi` is defined),
every type without an opening parenthesis and every params string, `deserialize` returns on
the serialized form of `create(category, type, params)`, and what it returns has the same
category, type and params and is equal to the original under `operator==`. -/
theorem deserialize_serialize_roundtrip (category : Nat) (type params : Str)
    (_hcategory : category < 2 ^ 31) (htype : '(' ∉ type) :
    ∃ d, deserialize (serialize (create category type params)).1 = .ok d ∧
      operatorEq d (create category type params) = true ∧
      d.m_category = category ∧ d.m_type = type ∧ d.m_params = params ∧
      d.isNull = false := by
  have hser : (serialize (create category type params)).1 =
      decimal category ++ '-' :: (type ++ '(' :: (params ++ [')'])) := by
    unfold serialize
    rw [toString_coherent _ (cacheCoherent_create _ _ _)]
    simp [canonical, create]
  have hshape := deserialize_shape (decimal category) type params ')'
    (not_mem_decimal (by decide) category) (not_mem_decimal (by decide) category) htype
  rw [atoi_decimal] at hshape
  refine ⟨create category type params, ?_, ?_, rfl, rfl, rfl, rfl⟩
  · rw [hser, hshape]
    rfl
  · simp [operatorEq, create]

/-- Witness for C1: the descriptor of the spec's example, `create(1, "fire", "17")`. -/
theorem deserialize_serialize_roundtrip_witness :
    ∃ d, deserialize (serialize (create 1 "fire".toList "17".toList)).1 = .ok d ∧
      operatorEq d (create 1 "fire".toList "17".toList) = true ∧
      d.m_category = 1 ∧ d.m_type = "fire".toList ∧ d.m_params = "17".toList ∧
      d.isNull = false :=
  deserialize_serialize_roundtrip 1 "fire".toList "17".toList (by decide) (by decide)

/-- C2: `serialize` on `create(category, type, params)` returns the decimal category code,
a dash, the type, and the params in parentheses; the first call stores that string in the
cache, and each later call on the descriptor left by the previous calls returns the same
string.  The descriptor `create(1, "fire", "17")` serializes to "1-fire(17)". -/
theorem serialize_canonical_cached (category : Nat) (type params : Str) :
    (serialize (create category type params)).1 =
      decimal category ++ "-".toList ++ type ++ "(".toList ++ params ++ ")".toList ∧
    (serialize (create category type params)).2.m_full_cache =
      (serialize (create category type params)).1 ∧
    (∀ n : Nat,
      (serialize ((fun e => (serialize e).2)^[n] (create category type params))).1 =
        (serialize (create category type params)).1) ∧
    (serialize (create 1 "fire".toList "17".toList)).1 = "1-fire(17)".toList := by
  have hall : ∀ n : Nat,
      CacheCoherent ((fun e => (serialize e).2)^[n] (create category type params)) ∧
      ((fun e => (serialize e).2)^[n] (create category type params)).m_category = category ∧
      ((fun e => (serialize e).2)^[n] (create category type params)).m_type = type ∧
      ((fun e => (serialize e).2)^[n] (create category type params)).m_params = params := by
    intro n
    induction n with
    | zero => exact ⟨cacheCoherent_create _ _ _, rfl, rfl, rfl⟩
    | succ n ih =>
      rw [Function.iterate_succ_apply']
      obtain ⟨hc, h1, h2, h3⟩ := ih
      refine ⟨cacheCoherent_toString _ hc, ?_, ?_, ?_⟩
      · rw [serialize_coherent _ hc]
        exact h1
      · rw [serialize_coherent _ hc]
        exact h2
      · rw [serialize_coherent _ hc]
        exact h3
  have h0 : (serialize (create category type params)) =
      (canonical category type params,
        { create category type params with m_full_cache := canonical category type params }) :=
    toString_coherent _ (cacheCoherent_create _ _ _)
  refine ⟨?_, ?_, ?_, by decide⟩
  · rw [h0]
    simp [canonical]
  · rw [h0]
  · intro n
    obtain ⟨hc, h1, h2, h3⟩ := hall n
    rw [h0, serialize_coherent _ hc, h1, h2, h3]

/-- C3: on a descriptor with a coherent cache (empty, or filled by an earlier `serialize`)
whose params is the comma-join of one or more comma-free values, `patchParameter(i, newValue)`
with `i` below the number of values returns; afterwards `serialize` gives the canonical form
with the same category and type and with the `i`-th value replaced by `newValue`, the others
staying in place, `isPatched` holds, and `toUnpatchedString` gives the string `serialize`
returned before the patch.  The same holds when the patch is applied to the descriptor left
by a `serialize` call.  On "1-fire(17)", patching parameter 0 to "42" gives "1-fire(42)" with
unpatched string "1-fire(17)". -/
theorem patchParameter_spec (d : EventActionDescriptor) (values : List Str) (i : Nat)
    (newValue : Str) (hcache : CacheCoherent d) (hne : values ≠ [])
    (hfree : ∀ v ∈ values, ',' ∉ v) (hparams : d.m_params = joinParams values)
    (hi : i < values.length) :
    (∃ d1, patchParameter d i newValue = .ok d1 ∧
      (serialize d1).1 =
        canonical d.m_category d.m_type (joinParams (values.set i newValue)) ∧
      d1.isPatched = true ∧
      (toUnpatchedString d1).1 = (serialize d).1) ∧
    (∃ d2, patchParameter (serialize d).2 i newValue = .ok d2 ∧
      (serialize d2).1 =
        canonical d.m_category d.m_type (joinParams (values.set i newValue)) ∧
      d2.isPatched = true ∧
      (toUnpatchedString d2).1 = (serialize (serialize d).2).1 ∧
      (serialize (serialize d).2).1 = (serialize d).1) ∧
    (patchParameter (serialize (create 1 "fire".toList "17".toList)).2 0 "42".toList).map
      (fun e => ((serialize e).1, (toUnpatchedString e).1)) =
        .ok ("1-fire(42)".toList, "1-fire(17)".toList) := by
  have key : ∀ e : EventActionDescriptor, CacheCoherent e → e.m_params = joinParams values →
      ∃ e1, patchParameter e i newValue = .ok e1 ∧
        (serialize e1).1 =
          canonical e.m_category e.m_type (joinParams (values.set i newValue)) ∧
        e1.isPatched = true ∧ (toUnpatchedString e1).1 = (serialize e).1 := by
    intro e hc hp
    have hget : values[i]? = some (values[i]) := List.getElem?_eq_getElem hi
    have hpatch := patchParameter_joined e values i _ newValue hc hne hfree hp hget
    refine ⟨_, hpatch, ?_, rfl, ?_⟩
    · rw [serialize_coherent _ (Or.inl rfl)]
    · rw [serialize_coherent _ hc]
      rfl
  have hc2 : CacheCoherent (serialize d).2 := cacheCoherent_toString d hcache
  have hs2 : (serialize d).2 =
      { d with m_full_cache := canonical d.m_category d.m_type d.m_params } := by
    rw [serialize_coherent d hcache]
  refine ⟨key d hcache hparams, ?_, by decide⟩
  obtain ⟨e1, h1, h2, h3, h4⟩ := key (serialize d).2 hc2 (by rw [hs2]; exact hparams)
  refine ⟨e1, h1, ?_, h3, h4, ?_⟩
  · rw [h2, hs2]
  · rw [serialize_coherent _ hc2, serialize_coherent d hcache]

/-- Witness for C3: the spec's example, `create(1, "fire", "17")` patched at index 0 with
"42". -/
theorem patchParameter_spec_witness :
    (∃ d1, patchParameter (create 1 "fire".toList "17".toList) 0 "42".toList = .ok d1 ∧
      (serialize d1).1 =
        canonical 1 "fire".toList (joinParams (["17".toList].set 0 "42".toList)) ∧
      d1.isPatched = true ∧
      (toUnpatchedString d1).1 = (serialize (create 1 "fire".toList "17".toList)).1) :=
  (patchParameter_spec (create 1 "fire".toList "17".toList) ["17".toList] 0 "42".toList
    (cacheCoherent_create _ _ _) (by decide) (by decide) (by decide) (by decide)).1

/-- C4: `getParameter(i)` returns exactly when `i` is below the number of fields that
splitting params on the comma yields, and then returns the `i`-th field; for every other `i`
the assertion "indexing into non-existing param" fails.  With params "17", index 0 gives "17"
and index 1 fails. -/
theorem getParameter_spec (d : EventActionDescriptor) (i : Nat) :
    (getParameter d i =
      match (d.m_params.splitOn ',')[i]? with
      | some field => .ok field
      | none => .error .nonExistingParam) ∧
    ((∃ field, getParameter d i = .ok field) ↔ i < (d.m_params.splitOn ',').length) ∧
    (getParameter d i = .error .nonExistingParam ↔ (d.m_params.splitOn ',').length ≤ i) ∧
    getParameter (create 1 "fire".toList "17".toList) 0 = .ok "17".toList ∧
    getParameter (create 1 "fire".toList "17".toList) 1 = .error .nonExistingParam := by
  have h := getParameter_joined d (d.m_params.splitOn ',') i (splitOn_ne_nil _)
    (splitOn_free _) (joinParams_splitOn _).symm
  refine ⟨h, ?_, ?_, by decide, by decide⟩
  · rw [h]
    by_cases hi : i < (d.m_params.splitOn ',').length
    · simp [List.getElem?_eq_getElem hi, hi]
    · simp [List.getElem?_eq_none (Nat.le_of_not_lt hi), hi]
  · rw [h]
    by_cases hi : i < (d.m_params.splitOn ',').length
    · simp [List.getElem?_eq_getElem hi, hi]
    · simp [List.getElem?_eq_none (Nat.le_of_not_lt hi), Nat.le_of_not_lt hi]

/-- C5, as stated, fails: "1-fire(17" has no closing parenthesis, yet `deserialize` returns
a descriptor on it, with category 1, type "fire" and params "1" (the last character is cut
off unseen). -/
theorem deserialize_accepts_unclosed :
    ')' ∉ "1-fire(17".toList ∧
    deserialize "1-fire(17".toList = .ok (create 1 "fire".toList "1".toList) := by
  decide

/-- C5, amended: `deserialize(raw)` fails exactly when `raw` contains no dash, or no opening
parenthesis, or its first opening parenthesis is not after its first dash; the failure is
then one of the three assertions of `deserialize`.  Nothing is required of a closing
parenthesis. -/
theorem deserialize_fails_iff (raw : Str) :
    ((∃ f, deserialize raw = .error f) ↔
      ('-' ∉ raw ∨ '(' ∉ raw ∨ ¬ raw.indexOf '-' < raw.indexOf '(')) ∧
    (∀ f, deserialize raw = .error f →
      f = .typeStartNotFound ∨ f = .typeEndNotFound ∨ f = .typeStartNotBeforeTypeEnd) := by
  obtain ⟨c1, c2, c3, c4⟩ := deserialize_cases raw
  by_cases h1 : '-' ∈ raw
  · by_cases h2 : '(' ∈ raw
    · by_cases h3 : raw.indexOf '-' < raw.indexOf '('
      · obtain ⟨d, hd⟩ := c4 h1 h2 h3
        simp [hd, h1, h2, h3]
      · simp [c3 h1 h2 h3, h1, h2, h3]
    · simp [c2 h1 h2, h1, h2]
  · simp [c1 h1, h1]

/-- Witness for C5: a string without a dash is rejected. -/
theorem deserialize_fails_iff_witness : ∃ f, deserialize "1fire(17)".toList = .error f :=
  (deserialize_fails_iff "1fire(17)".toList).1.2 (Or.inl (by decide))

/-- C6: `a == b` holds exactly when category, type and params of `a` and `b` agree; the
patched flag, the unpatched snapshot, the cache and the null flag play no part, so the result
is the one for freshly created descriptors with the same three members, and a descriptor
returned by `patchParameter` equals the fresh descriptor with its category, type and params;
`a != b` is the negation of `a == b`. -/
theorem operatorEq_iff (a b : EventActionDescriptor) :
    (operatorEq a b = true ↔
      a.m_category = b.m_category ∧ a.m_type = b.m_type ∧ a.m_params = b.m_params) ∧
    operatorEq a b =
      operatorEq (create a.m_category a.m_type a.m_params)
        (create b.m_category b.m_type b.m_params) ∧
    (∀ (number : Nat) (value : Str) (patched : EventActionDescriptor),
      patchParameter a number value = .ok patched →
        patched.isPatched = true ∧
        operatorEq patched (create a.m_category a.m_type patched.m_params) = true ∧
        operatorEq (create a.m_category a.m_type patched.m_params) patched = true) ∧
    operatorNe a b = !(operatorEq a b) := by
  refine ⟨?_, rfl, ?_, rfl⟩
  · simp [operatorEq, and_assoc]
  · intro number value patched h
    unfold patchParameter at h
    simp only [bind, Except.bind, pure, Except.pure] at h
    split at h
    · exact absurd h (by simp)
    · split at h
      · exact absurd h (by simp)
      · split at h
        · exact absurd h (by simp)
        · simp only [Except.ok.injEq] at h
          subst h
          have hcat : (EventActionDescriptor.toString a).2.m_category = a.m_category := by
            unfold EventActionDescriptor.toString
            split <;> rfl
          have htype : (EventActionDescriptor.toString a).2.m_type = a.m_type := by
            unfold EventActionDescriptor.toString
            split <;> rfl
          simp [operatorEq, create, isPatched, hcat, htype]

/-- Witness for C6: patching "1-fire(17)" to "42" gives a descriptor equal to the fresh
`create(1, "fire", "42")`. -/
theorem operatorEq_iff_witness :
    operatorEq
      { create 1 "fire".toList "42".toList with
        m_patched := true, m_unpatchedString := "1-fire(17)".toList }
      (create 1 "fire".toList "42".toList) = true :=
  ((operatorEq_iff (create 1 "fire".toList "17".toList)
    (create 1 "fire".toList "17".toList)).2.2.1 0 "42".toList
      { create 1 "fire".toList "42".toList with
        m_patched := true, m_unpatchedString := "1-fire(17)".toList } (by decide)).2.1

/-- C7 fails on the code: `operator==` never looks at `m_isNull`, and the default
constructor leaves `m_category` to the zero-initialised static storage of
`EventActionDescriptor::null`; the non-null descriptor `create(0, "", "")` and the null
descriptor compare equal in both directions. -/
theorem null_equals_empty_descriptor :
    (create 0 [] []).isNull = false ∧ null.isNull = true ∧
    operatorEq (create 0 [] []) null = true ∧ operatorEq null (create 0 [] []) = true ∧
    operatorNe (create 0 [] []) null = false := by
  decide

/-- C8: `escapeParam(value)` has the length of `value`, contains no comma, and holds at every
position a full stop where `value` holds a comma and the character of `value` elsewhere; it
returns a comma-free value unchanged, and it maps both "a,b" and "a.b" to "a.b". -/
theorem escapeParam_spec (value : Str) :
    (escapeParam value).length = value.length ∧
    ',' ∉ escapeParam value ∧
    (∀ (i : Nat) (c : Char), value[i]? = some c →
      (escapeParam value)[i]? = some (if c = ',' then '.' else c)) ∧
    (',' ∉ value → escapeParam value = value) ∧
    escapeParam "a,b".toList = "a.b".toList ∧ escapeParam "a.b".toList = "a.b".toList ∧
    "a,b".toList ≠ "a.b".toList := by
  refine ⟨by simp [escapeParam], ?_, ?_, ?_, by decide, by decide, by decide⟩
  · simp only [escapeParam, List.mem_map, not_exists, not_and]
    intro c _ hc
    split at hc
    · exact absurd hc (by decide)
    · rename_i hne
      exact hne hc
  · intro i c h
    simp [escapeParam, List.getElem?_map, h]
  · intro h
    unfold escapeParam
    conv_rhs => rw [← List.map_id value]
    apply List.map_congr_left
    intro c hc
    have : ¬ c = ',' := by
      rintro rfl
      exact h hc
    simp [this]

/-- Witness for C8: a comma-free value is returned unchanged. -/
theorem escapeParam_spec_witness : escapeParam "17".toList = "17".toList :=
  (escapeParam_spec "17".toList).2.2.2.1 (by decide)

/-! ## Properties of the clients -/

/-- C9: the close handler of a running recorder writes to the arc dump one line per arc, in
the order of the list, each the tail, then " -> ", then the head, then a newline, and nothing
else: as many lines as arcs, the `i`-th line for the `i`-th arc, duplicates kept.  The arc
("1-fire(17)", "2-net(a)") gives the line "1-fire(17) -> 2-net(a)". -/
theorem arc_dump_lines {α : Type} (text : α → Str) (arcs : List (Arc α))
    (app : RecordClientApplication) (hrunning : app.m_running = true) :
    (slOnCloseEvent text arcs app).arcslog =
      (arcs.map fun a =>
        text a.m_tail ++ " -> ".toList ++ text a.m_head ++ "\n".toList).flatten ∧
    (arcs.map fun a => text a.m_tail ++ " -> ".toList ++ text a.m_head).length =
      arcs.length ∧
    (∀ (i : Nat) (a : Arc α), arcs[i]? = some a →
      (arcs.map fun a => text a.m_tail ++ " -> ".toList ++ text a.m_head)[i]? =
        some (text a.m_tail ++ " -> ".toList ++ text a.m_head)) ∧
    (slOnCloseEvent id [⟨"1-fire(17)".toList, "2-net(a)".toList⟩] ⟨true, []⟩).arcslog =
      "1-fire(17) -> 2-net(a)\n".toList := by
  refine ⟨?_, by simp, ?_, by decide⟩
  · simp [slOnCloseEvent, hrunning, writeArcs_eq, arcLine]
  · intro i a h
    simp [List.getElem?_map, h]

/-- Witness for C9: two arcs, the second a repetition of the first, dumped by a running
recorder. -/
theorem arc_dump_lines_witness :
    (slOnCloseEvent id [⟨"a".toList, "b".toList⟩, ⟨"a".toList, "b".toList⟩]
      ⟨true, []⟩).arcslog =
      ([⟨"a".toList, "b".toList⟩, ⟨"a".toList, "b".toList⟩].map fun a : Arc Str =>
        id a.m_tail ++ " -> ".toList ++ id a.m_head ++ "\n".toList).flatten :=
  (arc_dump_lines id [⟨"a".toList, "b".toList⟩, ⟨"a".toList, "b".toList⟩]
    ⟨true, []⟩ rfl).1

/-- C10: the first `slSchedulerDone` call (stopping flag clear) returns and appends to the
output a description line, then one result line, then one "HTML-hash: " line with the decimal
digest, a `uint`.  The result line is "Result: FINISHED" exactly for state `FINISHED`,
"Result: TIMEOUT" exactly for `TIMEOUT`, and "Result: ERROR" for `ERROR` and every other
state; neither of the two other lines starts with "Result: ".  The call sets the stopping
flag, and every later call, whatever the state and the page, leaves the output as it is. -/
theorem slSchedulerDone_result (qHash : Str → Nat) (state : SchedulerState)
    (mainFrame : QWebFrame) (app : ReplayClientApplication)
    (hfirst : app.m_isStopping = false) :
    ∃ (description result : Str) (digest : Nat) (app1 : ReplayClientApplication),
      slSchedulerDone qHash state mainFrame app = some app1 ∧
      app1.cout = app.cout ++ description ++ "\n".toList ++ result ++ "\n".toList ++
        ("HTML-hash: ".toList ++ decimal digest) ++ "\n".toList ∧
      digest < 2 ^ 32 ∧
      (result = "Result: FINISHED".toList ∨ result = "Result: TIMEOUT".toList ∨
        result = "Result: ERROR".toList) ∧
      (result = "Result: FINISHED".toList ↔ state = .FINISHED) ∧
      (result = "Result: TIMEOUT".toList ↔ state = .TIMEOUT) ∧
      (result = "Result: ERROR".toList ↔ state ≠ .FINISHED ∧ state ≠ .TIMEOUT) ∧
      "Result: ".toList.isPrefixOf description = false ∧ '\n' ∉ description ∧
      "Result: ".toList.isPrefixOf ("HTML-hash: ".toList ++ decimal digest) = false ∧
      '\n' ∉ "HTML-hash: ".toList ++ decimal digest ∧
      app1.m_isStopping = true ∧
      ∀ (state2 : SchedulerState) (mainFrame2 : QWebFrame),
        slSchedulerDone qHash state2 mainFrame2 app1 = some app1 := by
  obtain ⟨digest, hdigest, hlt⟩ := htmlHash_total qHash mainFrame
  obtain ⟨description, hprint, hpre, hnl⟩ := printState_eq state app.cout
  refine ⟨description, resultLine state, digest,
    ⟨true, putLine (printState state app.cout) ("HTML-hash: ".toList ++ decimal digest)⟩,
    ?_, ?_, hlt, ?_, ?_, ?_, ?_, hpre, hnl, ?_, ?_, rfl, ?_⟩
  · simp only [slSchedulerDone, hfirst, if_true, hdigest, Option.bind_eq_bind,
      Option.some_bind, Option.pure_def]
  · simp [hprint, putLine]
  · cases state <;> simp [resultLine]
  · cases state <;> simp [resultLine]
  · cases state <;> simp [resultLine]
  · cases state <;> simp [resultLine]
  · rfl
  · simp only [List.mem_append, not_or]
    refine ⟨by decide, ?_⟩
    exact not_mem_decimal (by decide) digest
  · intro state2 mainFrame2
    simp [slSchedulerDone]

/-- Witness for C10: a page of two frames whose scheduler timed out; the digest is the sum
of the frame hashes. -/
theorem slSchedulerDone_result_witness :
    slSchedulerDone (fun s => s.length) .TIMEOUT (.mk "ab".toList [.mk "c".toList []])
      ⟨false, []⟩ = some ⟨true,
        ("Schedule partially executed, timed out before finishing.\n" ++
          "Result: TIMEOUT\nHTML-hash: 3\n").toList⟩ ∧
    ∃ (description result : Str) (digest : Nat) (app1 : ReplayClientApplication),
      slSchedulerDone (fun s => s.length) .TIMEOUT (.mk "ab".toList [.mk "c".toList []])
        ⟨false, []⟩ = some app1 ∧
      app1.cout = [] ++ description ++ "\n".toList ++ result ++ "\n".toList ++
        ("HTML-hash: ".toList ++ decimal digest) ++ "\n".toList ∧
      (result = "Result: TIMEOUT".toList ↔ SchedulerState.TIMEOUT = .TIMEOUT) := by
  refine ⟨by decide, ?_⟩
  obtain ⟨description, result, digest, app1, h1, h2, _, _, _, h3, _⟩ :=
    slSchedulerDone_result (fun s => s.length) .TIMEOUT (.mk "ab".toList [.mk "c".toList []])
      ⟨false, []⟩ rfl
  exact ⟨description, result, digest, app1, h1, h2, h3⟩

/-! ## Retention of the unpatched string across several patches -/

/-- What `toUnpatchedString` returns after two patches in a row: the canonical form the
descriptor had between the two, that is with the first patch applied. -/
theorem toUnpatchedString_after_second_patch (d : EventActionDescriptor) (values : List Str)
    (i j : Nat) (first second : Str) (hcache : CacheCoherent d) (hne : values ≠ [])
    (hfree : ∀ v ∈ values, ',' ∉ v) (hfirst : ',' ∉ first)
    (hparams : d.m_params = joinParams values) (hi : i < values.length)
    (hj : j < values.length) :
    ∃ d1 d2, patchParameter d i first = .ok d1 ∧ patchParameter d1 j second = .ok d2 ∧
      (toUnpatchedString d2).1 =
        canonical d.m_category d.m_type (joinParams (values.set i first)) ∧
      (serialize d2).1 =
        canonical d.m_category d.m_type
          (joinParams ((values.set i first).set j second)) := by
  have h1 := patchParameter_joined d values i _ first hcache hne hfree hparams
    (List.getElem?_eq_getElem hi)
  have hne1 : values.set i first ≠ [] := by
    intro h
    have := congrArg List.length h
    simp only [List.length_set, List.length_nil] at this
    omega
  have hfree1 : ∀ v ∈ values.set i first, ',' ∉ v := by
    intro v hv
    rcases List.mem_or_eq_of_mem_set hv with hv | rfl
    · exact hfree v hv
    · exact hfirst
  have hj1 : j < (values.set i first).length := by
    rw [List.length_set]
    exact hj
  have h2 := patchParameter_joined _ (values.set i first) j _ second
    (cacheCoherent_patchParameter _ _ _ _ h1) hne1 hfree1 rfl (List.getElem?_eq_getElem hj1)
  refine ⟨_, _, h1, h2, rfl, ?_⟩
  rw [serialize_coherent _ (Or.inl rfl)]

/-- C11, as stated, fails: `patchParameter` stores `toString()` in `m_unpatchedString` on
every call, so the second patch replaces the string kept by the first.  On
`create(1, "fire", "17")`, constructed as "1-fire(17)", after one patch of parameter 0 to "42"
`toUnpatchedString` still gives "1-fire(17)"; after the further patch to "99" the descriptor
serializes to "1-fire(99)" and `toUnpatchedString` gives the intermediate "1-fire(42)", not
the string of construction. -/
theorem second_patch_overwrites_unpatched_string :
    (serialize (create 1 "fire".toList "17".toList)).1 = "1-fire(17)".toList ∧
    (do
      let d1 ← patchParameter (create 1 "fire".toList "17".toList) 0 "42".toList
      pure (toUnpatchedString d1).1 : Except Failure Str) = .ok "1-fire(17)".toList ∧
    (do
      let d1 ← patchParameter (create 1 "fire".toList "17".toList) 0 "42".toList
      let d2 ← patchParameter d1 0 "99".toList
      pure ((serialize d2).1, d2.isPatched, (toUnpatchedString d2).1) :
        Except Failure (Str × Bool × Str)) =
      .ok ("1-fire(99)".toList, true, "1-fire(42)".toList) ∧
    "1-fire(42)".toList ≠ "1-fire(17)".toList := by
  decide

/-- A sequence of valid patches with comma-free values runs through, keeps category, type
and a coherent cache, and leaves the comma-join of the patched values as params. -/
theorem patchAll_spec (calls : List (Nat × Str)) (d : EventActionDescriptor)
    (values : List Str) (hcache : CacheCoherent d) (hne : values ≠ [])
    (hfree : ∀ v ∈ values, ',' ∉ v) (hparams : d.m_params = joinParams values)
    (hcalls : ∀ call ∈ calls, call.1 < values.length ∧ ',' ∉ call.2) :
    ∃ d1, patchAll d calls = .ok d1 ∧ CacheCoherent d1 ∧
      d1.m_category = d.m_category ∧ d1.m_type = d.m_type ∧
      d1.m_params = joinParams (setAll values calls) ∧
      (setAll values calls).length = values.length ∧
      (∀ v ∈ setAll values calls, ',' ∉ v) := by
  induction calls generalizing d values with
  | nil => exact ⟨d, rfl, hcache, rfl, rfl, hparams, rfl, hfree⟩
  | cons call calls ih =>
    obtain ⟨hlt, hcomma⟩ := hcalls call (by simp)
    have h1 := patchParameter_joined d values call.1 _ call.2 hcache hne hfree hparams
      (List.getElem?_eq_getElem hlt)
    have hne1 : values.set call.1 call.2 ≠ [] := by
      intro h
      have := congrArg List.length h
      simp only [List.length_set, List.length_nil] at this
      omega
    have hfree1 : ∀ v ∈ values.set call.1 call.2, ',' ∉ v := by
      intro v hv
      rcases List.mem_or_eq_of_mem_set hv with hv | rfl
      · exact hfree v hv
      · exact hcomma
    have hcalls1 : ∀ c ∈ calls, c.1 < (values.set call.1 call.2).length ∧ ',' ∉ c.2 := by
      intro c hc
      rw [List.length_set]
      exact hcalls c (by simp [hc])
    obtain ⟨d2, h2, hc2, hcat, htype, hpar, hlen, hfree2⟩ :=
      ih _ (values.set call.1 call.2) (cacheCoherent_patchParameter _ _ _ _ h1) hne1 hfree1
        rfl hcalls1
    refine ⟨d2, ?_, hc2, hcat, htype, hpar, ?_, hfree2⟩
    · simp only [patchAll, h1]
      exact h2
    · simp only [setAll]
      rw [hlen, List.length_set]

theorem patchAll_append_singleton (calls : List (Nat × Str)) (d d1 : EventActionDescriptor)
    (last : Nat × Str) (h : patchAll d calls = .ok d1) :
    patchAll d (calls ++ [last]) = patchParameter d1 last.1 last.2 := by
  induction calls generalizing d with
  | nil =>
    simp only [patchAll, Except.ok.injEq] at h
    subst h
    simp only [List.nil_append, patchAll]
    cases patchParameter d last.1 last.2 <;> rfl
  | cons call calls ih =>
    simp only [patchAll] at h
    simp only [List.cons_append, patchAll]
    cases hp : patchParameter d call.1 call.2 with
    | error f =>
      rw [hp] at h
      exact absurd h (by simp)
    | ok d2 =>
      rw [hp] at h
      exact ih d2 h

theorem setAll_append_singleton (calls : List (Nat × Str)) (values : List Str)
    (last : Nat × Str) :
    setAll values (calls ++ [last]) = (setAll values calls).set last.1 last.2 := by
  induction calls generalizing values with
  | nil => rfl
  | cons call calls ih =>
    show setAll (values.set call.1 call.2) (calls ++ [last]) = _
    exact ih _

/-- C11, amended: on a descriptor with a coherent cache whose params is the comma-join of
one or more comma-free values, every non-empty sequence of valid `patchParameter` calls (the
calls `earlier` with comma-free values, then the call `(i, newValue)`) runs through, and
afterwards `toUnpatchedString` returns the string `serialize` gave immediately before the
last call of the sequence: the canonical form with all earlier patches applied.  For a single
patch that is the string the descriptor had before any patch; with two or more patches it is
the intermediate, already patched form. -/
theorem toUnpatchedString_after_patches (d : EventActionDescriptor) (values : List Str)
    (earlier : List (Nat × Str)) (i : Nat) (newValue : Str) (hcache : CacheCoherent d)
    (hne : values ≠ []) (hfree : ∀ v ∈ values, ',' ∉ v)
    (hparams : d.m_params = joinParams values)
    (hearlier : ∀ call ∈ earlier, call.1 < values.length ∧ ',' ∉ call.2)
    (hi : i < values.length) :
    ∃ before after, patchAll d earlier = .ok before ∧
      patchAll d (earlier ++ [(i, newValue)]) = .ok after ∧
      (toUnpatchedString after).1 = (serialize before).1 ∧
      (serialize before).1 =
        canonical d.m_category d.m_type (joinParams (setAll values earlier)) ∧
      (earlier = [] → (toUnpatchedString after).1 = (serialize d).1) ∧
      after.isPatched = true ∧
      (serialize after).1 = canonical d.m_category d.m_type
        (joinParams (setAll values (earlier ++ [(i, newValue)]))) := by
  obtain ⟨before, hb, hcb, hcat, htype, hpar, hlen, hfreeb⟩ :=
    patchAll_spec earlier d values hcache hne hfree hparams hearlier
  have hneb : setAll values earlier ≠ [] := by
    intro h
    have := congrArg List.length h
    rw [hlen] at this
    exact hne (List.length_eq_zero.1 this)
  have hib : i < (setAll values earlier).length := by
    rw [hlen]
    exact hi
  have hpatch := patchParameter_joined before (setAll values earlier) i _ newValue hcb hneb
    hfreeb hpar (List.getElem?_eq_getElem hib)
  have hsb : (serialize before).1 =
      canonical d.m_category d.m_type (joinParams (setAll values earlier)) := by
    rw [serialize_coherent _ hcb, hcat, htype, hpar]
  have hun : (toUnpatchedString
      { before with
        m_params := joinParams ((setAll values earlier).set i newValue)
        m_patched := true
        m_unpatchedString := canonical before.m_category before.m_type before.m_params
        m_full_cache := [] }).1 = (serialize before).1 := by
    rw [serialize_coherent _ hcb]
    rfl
  refine ⟨before, _, hb, ?_, hun, hsb, ?_, rfl, ?_⟩
  · rw [patchAll_append_singleton earlier d before (i, newValue) hb]
    exact hpatch
  · intro hnil
    subst hnil
    simp only [patchAll, Except.ok.injEq] at hb
    subst hb
    exact hun
  · rw [serialize_coherent _ (Or.inl rfl), setAll_append_singleton]
    simp only [hcat, htype]

/-- Witness for C11: `create(1, "fire", "17")` patched at index 0 with "42" and then with
"99"; `toUnpatchedString` returns what `serialize` gave between the two patches. -/
theorem toUnpatchedString_after_patches_witness :
    ∃ before after,
      patchAll (create 1 "fire".toList "17".toList) [(0, "42".toList)] = .ok before ∧
      patchAll (create 1 "fire".toList "17".toList)
        ([(0, "42".toList)] ++ [(0, "99".toList)]) = .ok after ∧
      (toUnpatchedString after).1 = (serialize before).1 ∧
      (serialize before).1 =
        canonical 1 "fire".toList (joinParams (setAll ["17".toList] [(0, "42".toList)])) := by
  obtain ⟨before, after, h1, h2, h3, h4, _⟩ :=
    toUnpatchedString_after_patches (create 1 "fire".toList "17".toList) ["17".toList]
      [(0, "42".toList)] 0 "99".toList (cacheCoherent_create _ _ _) (by decide) (by decide)
      (by decide) (by decide) (by decide)
  exact ⟨before, after, h1, h2, h3, h4⟩

end WebERA
